import Mathlib

/-!
Verification of the MAAC training driver (`main.py`) against its
natural-language specification.

The development shallowly embeds the scheduling skeleton of `run`
(episode loop, inner step loop, update-trigger, checkpointing and
shutdown sequence) as a trace of abstract events, and embeds the
transition buffer contract.  The learner and the environment are
opaque collaborators: their invocations appear as events only.

`utils/buffer.py` (class `ReplayBuffer`) is not part of the provided
sources; its push/len behaviour is modelled from the specification
(section 4.1) where needed.
-/

/-- The configuration fields of `main.py` that the scheduling core reads
(command-line flags; lines 125-135 of `main.py`). -/
structure Config where
  n_rollout_threads : Nat
  buffer_length : Nat
  n_episodes : Nat
  episode_length : Nat
  steps_per_update : Nat
  num_updates : Nat
  batch_size : Nat
  save_interval : Nat
deriving DecidableEq, Repr

/-- Abstract events emitted by the `run` loop, in program order.  Calls on
the learner, the environment, the buffer, the metrics sink and the
checkpoint paths appear as opaque events. -/
inductive Event where
  | envReset
  | prepRollouts
  | modelStep
  | envStep
  | push
  | prepTraining
  | sample
  | updateCritic
  | updatePolicies
  | updateAllTargets
  | logRewards (ep : Nat)
  | saveIncremental (ep : Nat)
  | saveLatest
  | envClose
  | loggerExport
  | loggerClose
deriving DecidableEq, Repr

/-- Mutable state threaded through the loop of `run`: the global step
counter `t` (line 68, incremented at line 89) and the number of buffer
pushes performed so far (line 87). -/
structure RunState where
  t : Nat
  pushes : Nat
deriving DecidableEq, Repr

/-- Number of parallel environment workers: `run` constructs the
vectorized environment with `max(config.n_rollout_threads, 2)` workers
(lines 41-44), and `make_parallel_env` makes exactly that many
environment instances (lines 15-23). -/
def nWorkers (cfg : Config) : Nat := max cfg.n_rollout_threads 2

/-- Buffer occupancy after `p` pushes: each push stores one row per
environment worker, and the buffer caps at `buffer_length` (spec 4.1). -/
def bufLen (cfg : Config) (p : Nat) : Nat :=
  min (p * nWorkers cfg) cfg.buffer_length

/-- The update-trigger condition of lines 91-92 of `main.py`:
`len(replay_buffer) >= config.batch_size and
(t % config.steps_per_update) < config.n_rollout_threads`. -/
def updateTriggered (cfg : Config) (len t : Nat) : Bool :=
  decide (cfg.batch_size ≤ len) &&
    decide (t % cfg.steps_per_update < cfg.n_rollout_threads)

/-- The burst body of lines 93-99 of `main.py`: `prep_training`, then a
`for` loop of `num_updates` iterations each doing sample, critic update,
policy update and target sync, then `prep_rollouts`. -/
def updateBurst (cfg : Config) : List Event :=
  Event.prepTraining ::
    ((List.range cfg.num_updates).flatMap
      (fun _ =>
        [Event.sample, Event.updateCritic, Event.updatePolicies,
         Event.updateAllTargets]) ++
     [Event.prepRollouts])

/-- One iteration of the inner step loop (lines 75-99): act, step the
environments, push the batch, advance `t` by `n_rollout_threads`, then
evaluate the trigger on the post-increment counter and, when it holds,
run the update burst. -/
def innerStep (cfg : Config) (s : RunState) : List Event × RunState :=
  let s' : RunState := ⟨s.t + cfg.n_rollout_threads, s.pushes + 1⟩
  ([Event.modelStep, Event.envStep, Event.push] ++
     (if updateTriggered cfg (bufLen cfg s'.pushes) s'.t then updateBurst cfg
      else []),
   s')

/-- The inner loop of line 75: `episode_length` repetitions of
`innerStep`, threading the loop state. -/
def innerLoop (cfg : Config) : Nat → RunState → List Event × RunState
  | 0, s => ([], s)
  | n + 1, s =>
      let p := innerStep cfg s
      let q := innerLoop cfg n p.2
      (p.1 ++ q.1, q.2)

/-- The checkpoint block of lines 107-111: when
`ep_i % save_interval < n_rollout_threads`, switch to rollout mode,
save `incremental/model_ep{ep_i+1}.pt` and overwrite `model.pt`. -/
def saveEvents (cfg : Config) (ep : Nat) : List Event :=
  if ep % cfg.save_interval < cfg.n_rollout_threads then
    [Event.prepRollouts, Event.saveIncremental (ep + 1), Event.saveLatest]
  else []

/-- One iteration of the episode loop (lines 69-111): reset, rollout
mode, the inner step loop, the per-episode metrics report, then the
conditional checkpoint block. -/
def episodeEvents (cfg : Config) (ep : Nat) (s : RunState) :
    List Event × RunState :=
  let p := innerLoop cfg cfg.episode_length s
  (Event.envReset :: Event.prepRollouts ::
     (p.1 ++ (Event.logRewards ep :: saveEvents cfg ep)),
   p.2)

/-- The episode indices visited by `range(0, n_episodes, n_rollout_threads)`
at line 69 (for a positive stride). -/
def episodeIndices (cfg : Config) : List Nat :=
  (List.range
      ((cfg.n_episodes + cfg.n_rollout_threads - 1) / cfg.n_rollout_threads)).map
    (fun k => k * cfg.n_rollout_threads)

/-- The episode loop: fold `episodeEvents` over the episode indices,
threading the loop state. -/
def runEpisodes (cfg : Config) : List Nat → RunState → List Event
  | [], _ => []
  | ep :: rest, s =>
      let p := episodeEvents cfg ep s
      p.1 ++ runEpisodes cfg rest p.2

/-- The full event trace of `run` (lines 68-116): the episode loop
followed by the shutdown sequence of lines 113-116 — final
`model.save(RUN_DIR / 'model.pt')`, `env.close()`,
`logger.export_scalars_to_json(...)`, `logger.close()`. -/
def runTrace (cfg : Config) : List Event :=
  runEpisodes cfg (episodeIndices cfg) ⟨0, 0⟩ ++
    [Event.saveLatest, Event.envClose, Event.loggerExport, Event.loggerClose]

/-- Modelled from the spec: `utils/buffer.py` (class `ReplayBuffer`) is
not among the provided sources.  Per section 4.1 the buffer owns ring
arrays of fixed capacity `max_steps`, a write cursor `curr_i` wrapping
modulo the capacity and a filled count `filled_i` saturating at the
capacity.  Entries are tagged by insertion id (the spec's testable
ring-invariant instrumentation); a slot holds `none` until first
written. -/
structure ReplayBuffer where
  max_steps : Nat
  data : Nat → Option Nat
  curr_i : Nat
  filled_i : Nat

/-- Modelled from the spec: a freshly allocated buffer of capacity `C`
(spec 3: write cursor 0, filled count 0, all slots undefined). -/
def ReplayBuffer.init (C : Nat) : ReplayBuffer :=
  ⟨C, fun _ => none, 0, 0⟩

/-- Modelled from the spec: writing one entry at the cursor — the cursor
advances by one modulo the capacity and the filled count increments,
capped at the capacity (spec 4.1 push, per entry). -/
def ReplayBuffer.push1 (b : ReplayBuffer) (x : Nat) : ReplayBuffer :=
  ⟨b.max_steps,
   fun j => if j = b.curr_i then some x else b.data j,
   (b.curr_i + 1) % b.max_steps,
   min (b.filled_i + 1) b.max_steps⟩

/-- Modelled from the spec: `push` of a batch writes its entries as
individual ring-buffer entries starting at the current cursor,
advancing the cursor by the batch size modulo the capacity and
incrementing the filled count by the batch size, capped (spec 4.1). -/
def ReplayBuffer.push (b : ReplayBuffer) (xs : List Nat) : ReplayBuffer :=
  xs.foldl ReplayBuffer.push1 b

/-- A sequence of push operations, each with its own batch. -/
def ReplayBuffer.pushAll (b : ReplayBuffer) (bss : List (List Nat)) :
    ReplayBuffer :=
  bss.foldl ReplayBuffer.push b

/-- Modelled from the spec: `len()` returns the filled count (spec 4.1). -/
def ReplayBuffer.len (b : ReplayBuffer) : Nat := b.filled_i

/-- The insertion ids currently stored in the buffer's slots. -/
def ReplayBuffer.storedIds (b : ReplayBuffer) : List Nat :=
  (List.range b.max_steps).filterMap b.data

/-- The buffer obtained by pushing the `n` insertion ids `0, …, n-1`
one at a time into a fresh buffer of capacity `C`. -/
def pushSeq (C n : Nat) : ReplayBuffer :=
  ReplayBuffer.push (ReplayBuffer.init C) (List.range n)

/-- The insertion id last written to slot `j` after the ids `0, …, n-1`
were pushed one at a time into a fresh buffer of capacity `C`. -/
def lastHit (C : Nat) : Nat → Nat → Option Nat
  | 0, _ => none
  | n + 1, j => if n % C = j then some n else lastHit C n j

theorem pushAll_eq_push_flatten (bss : List (List Nat)) :
    ∀ b : ReplayBuffer, b.pushAll bss = b.push bss.flatten := by
  induction bss with
  | nil => intro b; rfl
  | cons xs bss ih =>
      intro b
      simp [ReplayBuffer.pushAll, ReplayBuffer.push, List.foldl_append] at *
      exact ih (xs.foldl ReplayBuffer.push1 b)

theorem pushSeq_succ (C n : Nat) :
    pushSeq C (n + 1) = (pushSeq C n).push1 n := by
  simp [pushSeq, ReplayBuffer.push, List.range_succ, List.foldl_append]

theorem max_steps_push (xs : List Nat) :
    ∀ b : ReplayBuffer, (b.push xs).max_steps = b.max_steps := by
  induction xs with
  | nil => intro b; rfl
  | cons x xs ih =>
      intro b
      simpa [ReplayBuffer.push] using ih (b.push1 x)

theorem max_steps_pushSeq (C n : Nat) : (pushSeq C n).max_steps = C :=
  max_steps_push (List.range n) (ReplayBuffer.init C)

theorem filled_push (xs : List Nat) :
    ∀ b : ReplayBuffer, b.filled_i ≤ b.max_steps →
      (b.push xs).filled_i = min (b.filled_i + xs.length) b.max_steps := by
  induction xs with
  | nil =>
      intro b hb
      simp [ReplayBuffer.push]
      omega
  | cons x xs ih =>
      intro b hb
      have h := ih (b.push1 x) (by simp [ReplayBuffer.push1])
      simp [ReplayBuffer.push] at h ⊢
      rw [h]
      simp [ReplayBuffer.push1]
      omega

theorem len_push_le (xs : List Nat) (b : ReplayBuffer)
    (h : b.filled_i ≤ b.max_steps) : (b.push xs).len ≤ b.max_steps := by
  rw [ReplayBuffer.len, filled_push xs b h]
  omega

theorem len_pushSeq (C n : Nat) : (pushSeq C n).len = min n C := by
  rw [ReplayBuffer.len, pushSeq, filled_push (List.range n) (ReplayBuffer.init C) (by simp [ReplayBuffer.init])]
  simp [ReplayBuffer.init]

theorem curr_pushSeq (C : Nat) :
    ∀ n, (pushSeq C n).curr_i = n % C := by
  intro n
  induction n with
  | zero => simp [pushSeq, ReplayBuffer.push, ReplayBuffer.init, Nat.zero_mod]
  | succ n ih =>
      rw [pushSeq_succ]
      simp [ReplayBuffer.push1, max_steps_pushSeq, ih, Nat.mod_add_mod]

theorem data_pushSeq (C : Nat) :
    ∀ n j, (pushSeq C n).data j = lastHit C n j := by
  intro n
  induction n with
  | zero => intro j; simp [pushSeq, ReplayBuffer.push, ReplayBuffer.init, lastHit]
  | succ n ih =>
      intro j
      rw [pushSeq_succ]
      simp only [ReplayBuffer.push1, curr_pushSeq C n, lastHit]
      by_cases h : j = n % C
      · simp [h]
      · have h' : ¬ n % C = j := fun hc => h hc.symm
        simp [h, h', ih]

theorem lastHit_some (C : Nat) :
    ∀ n j i, lastHit C n j = some i → i < n ∧ i % C = j := by
  intro n
  induction n with
  | zero => intro j i h; simp [lastHit] at h
  | succ n ih =>
      intro j i h
      rw [lastHit] at h
      by_cases hc : n % C = j
      · simp [hc] at h
        exact ⟨by omega, by rw [← h]; exact hc⟩
      · simp [hc] at h
        have := ih j i h
        omega

theorem lastHit_exists_ge (C : Nat) :
    ∀ n i j, i < n → i % C = j → ∃ k, lastHit C n j = some k ∧ i ≤ k := by
  intro n
  induction n with
  | zero => intro i j h; omega
  | succ n ih =>
      intro i j h hj
      by_cases hc : n % C = j
      · exact ⟨n, by simp [lastHit, hc], by omega⟩
      · have hi : i < n := by
          rcases Nat.lt_succ_iff_lt_or_eq.mp h with h' | h'
          · exact h'
          · exact absurd (h' ▸ hj) hc
        obtain ⟨k, hk, hik⟩ := ih i j hi hj
        exact ⟨k, by simp [lastHit, hc, hk], hik⟩

theorem mem_storedIds (b : ReplayBuffer) (i : Nat) :
    i ∈ b.storedIds ↔ ∃ j, j < b.max_steps ∧ b.data j = some i := by
  simp [ReplayBuffer.storedIds, List.mem_filterMap, List.mem_range]

theorem lastHit_unique (C n i : Nat) (hn : C ≤ n)
    (hlo : n - C ≤ i) (hi : i < n) : lastHit C n (i % C) = some i := by
  obtain ⟨k, hk, hik⟩ := lastHit_exists_ge C n i (i % C) hi rfl
  obtain ⟨hkn, hkm⟩ := lastHit_some C n (i % C) k hk
  have hdvd : C ∣ k - i := (Nat.modEq_iff_dvd' hik).mp hkm.symm
  have hlt : k - i < C := by omega
  have : k - i = 0 := Nat.eq_zero_of_dvd_of_lt hdvd hlt
  have : k = i := by omega
  rw [this] at hk
  exact hk

/-- C1: Transition Buffer ring invariant.  For every sequence of push
operations whose entries carry the monotonically increasing insertion
ids `0, …, n-1` and whose cumulative size `n` reaches the capacity `C`,
`len()` never exceeds `C` at any point of the sequence, and eviction is
strict FIFO: the surviving insertion ids are exactly the most recent
`C` ids `n-C, …, n-1`. -/
theorem ringBuffer_fifo (C n : Nat) (bss : List (List Nat)) (hC : 0 < C)
    (hn : C ≤ n) (hids : bss.flatten = List.range n) :
    (∀ pre suf, bss = pre ++ suf →
        ((ReplayBuffer.init C).pushAll pre).len ≤ C) ∧
    (∀ i, i ∈ ((ReplayBuffer.init C).pushAll bss).storedIds ↔
        n - C ≤ i ∧ i < n) := by
  constructor
  · intro pre suf _
    rw [pushAll_eq_push_flatten]
    exact len_push_le pre.flatten (ReplayBuffer.init C) (by simp [ReplayBuffer.init])
  · intro i
    rw [pushAll_eq_push_flatten, hids]
    have hbuf : ReplayBuffer.push (ReplayBuffer.init C) (List.range n) = pushSeq C n := rfl
    rw [hbuf, mem_storedIds, max_steps_pushSeq]
    constructor
    · rintro ⟨j, hj, hdata⟩
      rw [data_pushSeq C n j] at hdata
      obtain ⟨hin, hmod⟩ := lastHit_some C n j i hdata
      refine ⟨?_, hin⟩
      by_contra hlo
      have hiC : i + C < n := by omega
      have hmod' : (i + C) % C = j := by rw [Nat.add_mod_right]; exact hmod
      obtain ⟨k, hk, hik⟩ := lastHit_exists_ge C n (i + C) j hiC hmod'
      rw [hdata] at hk
      have : k = i := by injection hk.symm
      omega
    · rintro ⟨hlo, hi⟩
      refine ⟨i % C, Nat.mod_lt i hC, ?_⟩
      rw [data_pushSeq C n (i % C)]
      exact lastHit_unique C n i hn hlo hi

/-- C1 witness: capacity 3, ids 0-4 pushed in three batches; the
surviving ids are exactly 2, 3, 4. -/
theorem ringBuffer_fifo_witness :
    0 < 3 ∧ 3 ≤ 5 ∧ [[0, 1], [2], [3, 4]].flatten = List.range 5 ∧
    ((∀ pre suf, [[0, 1], [2], [3, 4]] = pre ++ suf →
        ((ReplayBuffer.init 3).pushAll pre).len ≤ 3) ∧
     (∀ i, i ∈ ((ReplayBuffer.init 3).pushAll [[0, 1], [2], [3, 4]]).storedIds ↔
        5 - 3 ≤ i ∧ i < 5)) :=
  ⟨by decide, by decide, by decide,
   ringBuffer_fifo 3 5 [[0, 1], [2], [3, 4]] (by decide) (by decide) (by decide)⟩

theorem bufLen_as_ReplayBuffer_len (cfg : Config) (p : Nat) :
    bufLen cfg p =
      (ReplayBuffer.push (ReplayBuffer.init cfg.buffer_length)
        (List.range (p * nWorkers cfg))).len := by
  rw [show ReplayBuffer.push (ReplayBuffer.init cfg.buffer_length)
        (List.range (p * nWorkers cfg)) = pushSeq cfg.buffer_length (p * nWorkers cfg) from rfl,
      len_pushSeq, bufLen]

theorem range_flatMap_const (n : Nat) (l : List Event) :
    (List.range n).flatMap (fun _ => l) = (List.replicate n l).flatten := by
  induction n with
  | zero => rfl
  | succ n ih =>
      rw [List.range_succ, List.replicate_succ']
      simp only [List.flatMap_append, List.flatten_append, ih]
      simp

theorem count_flatMap_const (n : Nat) (l : List Event) (e : Event) :
    ((List.range n).flatMap (fun _ => l)).count e = n * l.count e := by
  induction n with
  | zero => simp
  | succ n ih =>
      rw [List.range_succ]
      simp only [List.flatMap_append, List.count_append, ih]
      simp [Nat.succ_mul]

theorem count_prepTraining_updateBurst (cfg : Config) :
    (updateBurst cfg).count Event.prepTraining = 1 := by
  simp [updateBurst, List.count_cons, List.count_append, count_flatMap_const]

/-- C2: Update trigger condition.  In each iteration of the coordinator
step loop, the counter `t` is first advanced by `n_rollout_threads` (its
per-step increment `W`), and a training update burst — recognized by its
opening `prep_training` call — occurs in that iteration exactly once if
`buffer.len() >= batch_size` and `(t mod steps_per_update) < W` hold of
the post-increment counter, and not at all otherwise. -/
theorem update_trigger_iff (cfg : Config) (s : RunState) :
    (innerStep cfg s).2.t = s.t + cfg.n_rollout_threads ∧
    (innerStep cfg s).1.count Event.prepTraining =
      (if cfg.batch_size ≤ bufLen cfg (s.pushes + 1) ∧
          (s.t + cfg.n_rollout_threads) % cfg.steps_per_update <
            cfg.n_rollout_threads
       then 1 else 0) := by
  refine ⟨rfl, ?_⟩
  simp only [innerStep, List.count_append, updateTriggered]
  by_cases h1 : cfg.batch_size ≤ bufLen cfg (s.pushes + 1)
  · by_cases h2 :
        (s.t + cfg.n_rollout_threads) % cfg.steps_per_update < cfg.n_rollout_threads
    · simp [h1, h2, count_prepTraining_updateBurst]
    · simp [h1, h2]
  · simp [h1]

theorem updateBurst_shape (cfg : Config) :
    updateBurst cfg =
      Event.prepTraining ::
        ((List.replicate cfg.num_updates
            [Event.sample, Event.updateCritic, Event.updatePolicies,
             Event.updateAllTargets]).flatten ++
         [Event.prepRollouts]) := by
  rw [updateBurst, range_flatMap_const]

/-- C5: Burst structure and target-sync cadence.  Whenever the trigger
holds at a coordinator step, the step's events are the rollout events
followed by: switch to training mode, then exactly `num_updates`
repetitions of {sample; update critic; update policies; soft-update all
targets} in that order, then the switch back to rollout mode; in
particular `update_all_targets` runs once per sampled batch
(`num_updates` times per burst), not once per burst. -/
theorem burst_structure (cfg : Config) (s : RunState)
    (htrig : updateTriggered cfg (bufLen cfg (s.pushes + 1))
        (s.t + cfg.n_rollout_threads) = true) :
    (innerStep cfg s).1 =
      [Event.modelStep, Event.envStep, Event.push] ++
        (Event.prepTraining ::
          ((List.replicate cfg.num_updates
              [Event.sample, Event.updateCritic, Event.updatePolicies,
               Event.updateAllTargets]).flatten ++
           [Event.prepRollouts])) ∧
    (updateBurst cfg).count Event.updateAllTargets = cfg.num_updates ∧
    (updateBurst cfg).count Event.sample = cfg.num_updates := by
  refine ⟨?_, ?_, ?_⟩
  · simp only [innerStep, htrig, if_true, updateBurst_shape]
  · simp [updateBurst, List.count_cons, List.count_append, count_flatMap_const]
  · simp [updateBurst, List.count_cons, List.count_append, count_flatMap_const]

/-- A small configuration whose very first coordinator step triggers an
update burst: two rollout threads, `steps_per_update = 1` and
`batch_size = 0`. -/
def cfgBurst : Config := ⟨2, 10, 4, 3, 1, 2, 0, 5⟩

/-- C5 witness: on `cfgBurst`, the first step triggers and the burst has
the stated shape with two update repetitions. -/
theorem burst_structure_witness :
    updateTriggered cfgBurst
        (bufLen cfgBurst ((⟨0, 0⟩ : RunState).pushes + 1))
        ((⟨0, 0⟩ : RunState).t + cfgBurst.n_rollout_threads) = true ∧
    ((innerStep cfgBurst ⟨0, 0⟩).1 =
      [Event.modelStep, Event.envStep, Event.push] ++
        (Event.prepTraining ::
          ((List.replicate cfgBurst.num_updates
              [Event.sample, Event.updateCritic, Event.updatePolicies,
               Event.updateAllTargets]).flatten ++
           [Event.prepRollouts])) ∧
     (updateBurst cfgBurst).count Event.updateAllTargets = cfgBurst.num_updates ∧
     (updateBurst cfgBurst).count Event.sample = cfgBurst.num_updates) :=
  ⟨by decide, burst_structure cfgBurst ⟨0, 0⟩ (by decide)⟩

/-- The per-environment action re-layout of lines 84-85 of `main.py`:
`actions = [[ac[i] for ac in agent_actions] for i in range(n_rollout_threads)]`,
indexing modelled with `get?`. -/
def perEnvActions (cfg : Config) (agent_actions : List (List Int)) :
    List (List (Option Int)) :=
  (List.range cfg.n_rollout_threads).map
    (fun i => agent_actions.map (fun ac => ac.get? i))

/-- C10: Implicit worker-count precondition.  The vectorized environment
is built with `max(n_rollout_threads, 2)` workers while the action
re-layout handed to `env.step` and the step-counter increment use
`n_rollout_threads`; these sizes agree exactly when
`n_rollout_threads ≥ 2`, and for `n_rollout_threads = 1` the action
batch has fewer entries than there are workers. -/
theorem worker_count_precondition (cfg : Config)
    (agent_actions : List (List Int)) :
    nWorkers cfg = max cfg.n_rollout_threads 2 ∧
    (perEnvActions cfg agent_actions).length = cfg.n_rollout_threads ∧
    (∀ s : RunState, (innerStep cfg s).2.t = s.t + cfg.n_rollout_threads) ∧
    ((perEnvActions cfg agent_actions).length = nWorkers cfg ↔
      2 ≤ cfg.n_rollout_threads) ∧
    (cfg.n_rollout_threads = 1 →
      (perEnvActions cfg agent_actions).length < nWorkers cfg) := by
  refine ⟨rfl, by simp [perEnvActions], fun s => rfl, ?_, ?_⟩
  · simp only [perEnvActions, List.length_map, List.length_range, nWorkers]
    omega
  · intro h1
    simp only [perEnvActions, List.length_map, List.length_range, nWorkers, h1]
    omega

/-- Whether the trigger of lines 91-92 fires at the `k`-th coordinator
step (post-increment counter `t = k * n_rollout_threads`), with the
buffer always ready (`len` pinned at `batch_size`). -/
def triggerAtStep (cfg : Config) (k : Nat) : Bool :=
  updateTriggered cfg cfg.batch_size (k * cfg.n_rollout_threads)

/-- Number of coordinator steps among the first `K` whose trigger fires,
with the buffer always ready. -/
def numFires (cfg : Config) (K : Nat) : Nat :=
  ((List.range K).filter (fun k => triggerAtStep cfg (k + 1))).length

/-- Number of `steps_per_update` boundaries (positive multiples of
`steps_per_update`) crossed by the counter during the first `K`
coordinator steps, i.e. lying in `(0, K * n_rollout_threads]`. -/
def numBoundariesCrossed (cfg : Config) (K : Nat) : Nat :=
  ((Finset.range (K * cfg.n_rollout_threads + 1)).filter
    (fun n => 1 ≤ n ∧
      n * cfg.steps_per_update ≤ K * cfg.n_rollout_threads)).card

theorem div_add_step (S W a : Nat) (hW : 0 < W) (hWS : W ≤ S) :
    (a + W) / S = a / S + (if (a + W) % S < W then 1 else 0) := by
  have hS : 0 < S := lt_of_lt_of_le hW hWS
  have hmod := Nat.div_add_mod a S
  have h1 : a + W = S * (a / S) + (a % S + W) := by omega
  have hdiv : (a + W) / S = a / S + (a % S + W) / S := by
    rw [h1, Nat.mul_add_div hS]
  have hmod2 : (a + W) % S = (a % S + W) % S := by
    rw [h1, Nat.mul_add_mod]
  have hr : a % S < S := Nat.mod_lt a hS
  by_cases hc : a % S + W < S
  · have hz : (a % S + W) / S = 0 := Nat.div_eq_of_lt hc
    have hm : (a % S + W) % S = a % S + W := Nat.mod_eq_of_lt hc
    rw [hdiv, hz, hmod2, hm]
    have hno : ¬ (a % S + W < W) := by omega
    simp [hno]
  · have hx : a % S + W = (a % S + W - S) + S := by omega
    have hd : (a % S + W) / S = (a % S + W - S) / S + 1 := by
      conv_lhs => rw [hx]
      rw [Nat.add_div_right _ hS]
    have hlt : a % S + W - S < S := by omega
    have hz : (a % S + W - S) / S = 0 := Nat.div_eq_of_lt hlt
    have hm : (a % S + W) % S = a % S + W - S := by
      conv_lhs => rw [hx]
      rw [Nat.add_mod_right]
      exact Nat.mod_eq_of_lt hlt
    rw [hdiv, hd, hz, hmod2, hm]
    have hyes : a % S + W - S < W := by omega
    simp [hyes]

theorem numFires_succ (cfg : Config) (K : Nat) :
    numFires cfg (K + 1) =
      numFires cfg K + (if triggerAtStep cfg (K + 1) = true then 1 else 0) := by
  rw [numFires, numFires, List.range_succ, List.filter_append]
  by_cases h : triggerAtStep cfg (K + 1) = true
  · simp [h]
  · simp [h]

theorem triggerAtStep_iff_mod (cfg : Config) (k : Nat) :
    triggerAtStep cfg k = true ↔
      (k * cfg.n_rollout_threads) % cfg.steps_per_update <
        cfg.n_rollout_threads := by
  simp [triggerAtStep, updateTriggered]

theorem numFires_eq_div (cfg : Config) (hW : 0 < cfg.n_rollout_threads)
    (hWS : cfg.n_rollout_threads ≤ cfg.steps_per_update) :
    ∀ K, numFires cfg K =
      (K * cfg.n_rollout_threads) / cfg.steps_per_update := by
  intro K
  induction K with
  | zero => simp [numFires]
  | succ K ih =>
      rw [numFires_succ, ih, Nat.succ_mul,
          div_add_step cfg.steps_per_update cfg.n_rollout_threads
            (K * cfg.n_rollout_threads) hW hWS]
      by_cases h : (K * cfg.n_rollout_threads + cfg.n_rollout_threads) %
          cfg.steps_per_update < cfg.n_rollout_threads
      · have ht : triggerAtStep cfg (K + 1) = true := by
          rw [triggerAtStep_iff_mod, Nat.succ_mul]
          exact h
        simp [h, ht]
      · have ht : ¬ triggerAtStep cfg (K + 1) = true := by
          rw [triggerAtStep_iff_mod, Nat.succ_mul]
          exact h
        simp [h, ht]

theorem numBoundariesCrossed_eq_div (cfg : Config)
    (hS : 0 < cfg.steps_per_update) (K : Nat) :
    numBoundariesCrossed cfg K =
      (K * cfg.n_rollout_threads) / cfg.steps_per_update := by
  rw [numBoundariesCrossed]
  have hset :
      (Finset.range (K * cfg.n_rollout_threads + 1)).filter
        (fun n => 1 ≤ n ∧
          n * cfg.steps_per_update ≤ K * cfg.n_rollout_threads) =
      Finset.Icc 1 ((K * cfg.n_rollout_threads) / cfg.steps_per_update) := by
    ext n
    simp only [Finset.mem_filter, Finset.mem_range, Finset.mem_Icc]
    constructor
    · rintro ⟨_, h1, h2⟩
      exact ⟨h1, (Nat.le_div_iff_mul_le hS).mpr h2⟩
    · rintro ⟨h1, h2⟩
      have h3 : n * cfg.steps_per_update ≤ K * cfg.n_rollout_threads :=
        (Nat.le_div_iff_mul_le hS).mp h2
      have h4 : (K * cfg.n_rollout_threads) / cfg.steps_per_update ≤
          K * cfg.n_rollout_threads := Nat.div_le_self _ _
      exact ⟨by omega, h1, h3⟩
  rw [hset, Nat.card_Icc]
  simp

/-- C3 (amended): whenever the per-step increment `W = n_rollout_threads`
is positive and does not exceed `steps_per_update`, and the buffer is
always ready, the number of trigger firings among the first `K`
coordinator steps equals the number of `steps_per_update` boundaries
crossed — exactly one firing per boundary, never zero and never two.
(As stated, for every `W`, the claim fails: when
`W > steps_per_update` one step can cross several boundaries while
firing once; see the counterexample.) -/
theorem fires_once_per_boundary (cfg : Config) (K : Nat)
    (hW : 0 < cfg.n_rollout_threads)
    (hWS : cfg.n_rollout_threads ≤ cfg.steps_per_update) :
    numFires cfg K = numBoundariesCrossed cfg K := by
  rw [numFires_eq_div cfg hW hWS K,
      numBoundariesCrossed_eq_div cfg (lt_of_lt_of_le hW hWS) K]

/-- Configuration refuting C3 as stated: `W = 2`, `steps_per_update = 1`,
buffer always ready. -/
def cfgFastStride : Config := ⟨2, 10, 4, 3, 1, 4, 0, 5⟩

/-- C3 counterexample: with `W = 2` and `steps_per_update = 1`, the first
coordinator step crosses two boundaries (t = 1 and t = 2) but the
trigger fires only once, so the firing count differs from the
boundary-crossing count. -/
theorem fires_once_per_boundary_cex :
    numFires cfgFastStride 1 = 1 ∧ numBoundariesCrossed cfgFastStride 1 = 2 ∧
    numFires cfgFastStride 1 ≠ numBoundariesCrossed cfgFastStride 1 := by
  refine ⟨by decide, ?_, ?_⟩ <;> decide

/-- C3 witness: with the default `W = 12`, `steps_per_update = 100` and
20 coordinator steps, both counts equal 2. -/
theorem fires_once_per_boundary_witness :
    0 < (12 : Nat) ∧ (12 : Nat) ≤ 100 ∧
    numFires ⟨12, 10, 4, 3, 100, 4, 0, 5⟩ 20 =
      numBoundariesCrossed ⟨12, 10, 4, 3, 100, 4, 0, 5⟩ 20 :=
  ⟨by decide, by decide,
   fires_once_per_boundary ⟨12, 10, 4, 3, 100, 4, 0, 5⟩ 20 (by decide) (by decide)⟩

/-- The scenario configuration of the spec's scheduler-determinism test:
`steps_per_update = 100`, `W = 12`, `batch_size = 0` (buffer always
ready); the other fields carry the CLI defaults. -/
def cfgScenario : Config := ⟨12, 1000000, 50000, 25, 100, 4, 0, 1000⟩

/-- C4 counterexample: the claimed firing set contains the global step
count `t = 12` (reached after the first coordinator step), but the
trigger does not fire there: `12 mod 100 = 12` is not less than
`W = 12`.  (Likewise `t = 0` is never evaluated, since the counter is
incremented before the check.) -/
theorem scenario_trigger_cex :
    1 * cfgScenario.n_rollout_threads = 12 ∧
    triggerAtStep cfgScenario 1 = false := by
  refine ⟨by decide, by decide⟩

/-- C4 (amended): in the scenario, for every coordinator step `k ≥ 1`
(post-increment counter `t = 12k`), the trigger fires exactly when
`12k` is the first multiple of 12 that is greater than or equal to a
boundary `100n` with `n ≥ 1` — so the firing counts are
`108, 204, 300, 408, …`, not `0, 12, …, 96, 108, …` as stated. -/
theorem scenario_trigger_exact (k : Nat) (hk : 1 ≤ k) :
    triggerAtStep cfgScenario k = true ↔
      ∃ n, 1 ≤ n ∧ 100 * n ≤ 12 * k ∧ 12 * k < 100 * n + 12 := by
  have hmod : triggerAtStep cfgScenario k = true ↔ (k * 12) % 100 < 12 :=
    triggerAtStep_iff_mod cfgScenario k
  rw [hmod, Nat.mul_comm k 12]
  constructor
  · intro h
    have hqm := Nat.div_add_mod (12 * k) 100
    refine ⟨(12 * k) / 100, ?_, ?_, ?_⟩ <;> omega
  · rintro ⟨n, hn1, hn2, hn3⟩
    rw [show 12 * k = 100 * n + (12 * k - 100 * n) by omega, Nat.mul_add_mod,
        Nat.mod_eq_of_lt (show 12 * k - 100 * n < 100 by omega)]
    omega

/-- C4 witness: at step `k = 9` (counter `t = 108`) the trigger fires,
and 108 is the first multiple of 12 at or above the boundary 100. -/
theorem scenario_trigger_exact_witness :
    1 ≤ 9 ∧
    (triggerAtStep cfgScenario 9 = true ↔
      ∃ n, 1 ≤ n ∧ 100 * n ≤ 12 * 9 ∧ 12 * 9 < 100 * n + 12) :=
  ⟨by decide, scenario_trigger_exact 9 (by decide)⟩

theorem saveInc_not_mem_burst (cfg : Config) (m : Nat) :
    Event.saveIncremental m ∉ updateBurst cfg := by
  simp [updateBurst, List.mem_flatMap]

theorem saveInc_not_mem_innerLoop (cfg : Config) (m : Nat) :
    ∀ n s, Event.saveIncremental m ∉ (innerLoop cfg n s).1 := by
  intro n
  induction n with
  | zero => intro s; simp [innerLoop]
  | succ n ih =>
      intro s
      simp only [innerLoop]
      intro h
      rcases List.mem_append.mp h with h1 | h1
      · rcases List.mem_append.mp h1 with h2 | h2
        · simp at h2
        · by_cases htrig : updateTriggered cfg
              (bufLen cfg (s.pushes + 1)) (s.t + cfg.n_rollout_threads) = true
          · simp only [innerStep, htrig, if_true] at h2
            exact saveInc_not_mem_burst cfg m h2
          · simp only [Bool.not_eq_true] at htrig
            simp [innerStep, htrig] at h2
      · exact ih _ h1

theorem saveInc_mem_episodeEvents (cfg : Config) (ep : Nat) (s : RunState)
    (m : Nat) :
    Event.saveIncremental m ∈ (episodeEvents cfg ep s).1 ↔
      (m = ep + 1 ∧ ep % cfg.save_interval < cfg.n_rollout_threads) := by
  by_cases hc : ep % cfg.save_interval < cfg.n_rollout_threads
  · simp [episodeEvents, saveEvents, hc, saveInc_not_mem_innerLoop cfg m]
  · simp [episodeEvents, saveEvents, hc, saveInc_not_mem_innerLoop cfg m]

theorem saveInc_mem_runEpisodes (cfg : Config) (m : Nat) :
    ∀ eps s, Event.saveIncremental m ∈ runEpisodes cfg eps s ↔
      ∃ ep ∈ eps, m = ep + 1 ∧
        ep % cfg.save_interval < cfg.n_rollout_threads := by
  intro eps
  induction eps with
  | nil => intro s; simp [runEpisodes]
  | cons e rest ih =>
      intro s
      simp only [runEpisodes, List.mem_append, ih, saveInc_mem_episodeEvents]
      constructor
      · rintro (⟨h1, h2⟩ | ⟨ep', hmem, h1, h2⟩)
        · exact ⟨e, List.mem_cons_self e rest, h1, h2⟩
        · exact ⟨ep', List.mem_cons_of_mem e hmem, h1, h2⟩
      · rintro ⟨ep', hmem, h1, h2⟩
        rcases List.mem_cons.mp hmem with h3 | h3
        · subst h3
          exact Or.inl ⟨h1, h2⟩
        · exact Or.inr ⟨ep', h3, h1, h2⟩

theorem saveInc_mem_runTrace (cfg : Config) (m : Nat) :
    Event.saveIncremental m ∈ runTrace cfg ↔
      ∃ ep ∈ episodeIndices cfg, m = ep + 1 ∧
        ep % cfg.save_interval < cfg.n_rollout_threads := by
  simp [runTrace, saveInc_mem_runEpisodes]

theorem saveInc_adjacent_runEpisodes (cfg : Config) (ep : Nat)
    (hc : ep % cfg.save_interval < cfg.n_rollout_threads) :
    ∀ eps s, ep ∈ eps →
      ∃ l r, runEpisodes cfg eps s =
        l ++ Event.saveIncremental (ep + 1) :: Event.saveLatest :: r := by
  intro eps
  induction eps with
  | nil => intro s h; simp at h
  | cons e rest ih =>
      intro s hmem
      rcases List.mem_cons.mp hmem with h3 | h3
      · subst h3
        refine ⟨Event.envReset :: Event.prepRollouts ::
            ((innerLoop cfg cfg.episode_length s).1 ++
              [Event.logRewards ep, Event.prepRollouts]),
          runEpisodes cfg rest (episodeEvents cfg ep s).2, ?_⟩
        simp [runEpisodes, episodeEvents, saveEvents, hc]
      · obtain ⟨l, r, hlr⟩ := ih (episodeEvents cfg e s).2 h3
        exact ⟨(episodeEvents cfg e s).1 ++ l, r, by simp [runEpisodes, hlr]⟩

/-- C6: Incremental checkpointing.  For every visited episode index
`ep`, the incremental snapshot `incremental/model_ep{ep+1}.pt` is
persisted during the run exactly when `ep mod save_interval < W`, and
when it is, the write is immediately followed by the overwrite of the
canonical latest snapshot `model.pt`. -/
theorem incremental_checkpointing (cfg : Config)
    (hW : 0 < cfg.n_rollout_threads) (ep : Nat)
    (hep : ep ∈ episodeIndices cfg) :
    (Event.saveIncremental (ep + 1) ∈ runTrace cfg ↔
      ep % cfg.save_interval < cfg.n_rollout_threads) ∧
    (ep % cfg.save_interval < cfg.n_rollout_threads →
      ∃ l r, runTrace cfg =
        l ++ Event.saveIncremental (ep + 1) :: Event.saveLatest :: r) := by
  constructor
  · rw [saveInc_mem_runTrace]
    constructor
    · rintro ⟨ep', _, heq, hcond⟩
      have he : ep' = ep := by omega
      rw [← he]
      exact hcond
    · intro hc
      exact ⟨ep, hep, rfl, hc⟩
  · intro hc
    obtain ⟨l, r, hlr⟩ :=
      saveInc_adjacent_runEpisodes cfg ep hc (episodeIndices cfg) ⟨0, 0⟩ hep
    refine ⟨l, r ++ [Event.saveLatest, Event.envClose, Event.loggerExport,
        Event.loggerClose], ?_⟩
    rw [runTrace, hlr]
    simp

/-- A two-episode configuration with stride 2, `save_interval = 1`,
episode length 1. -/
def cfgTwoEpisodes : Config := ⟨2, 10, 2, 1, 1, 1, 0, 1⟩

/-- C6 witness: on `cfgTwoEpisodes`, episode index 0 is visited and
satisfies the save condition, so `model_ep1.pt` is written, followed by
the canonical overwrite. -/
theorem incremental_checkpointing_witness :
    0 < cfgTwoEpisodes.n_rollout_threads ∧
    0 ∈ episodeIndices cfgTwoEpisodes ∧
    ((Event.saveIncremental (0 + 1) ∈ runTrace cfgTwoEpisodes ↔
       0 % cfgTwoEpisodes.save_interval < cfgTwoEpisodes.n_rollout_threads) ∧
     (0 % cfgTwoEpisodes.save_interval < cfgTwoEpisodes.n_rollout_threads →
       ∃ l r, runTrace cfgTwoEpisodes =
         l ++ Event.saveIncremental (0 + 1) :: Event.saveLatest :: r)) :=
  ⟨by decide, by decide,
   incremental_checkpointing cfgTwoEpisodes (by decide) 0 (by decide)⟩

/-- A configuration with no episodes, isolating the shutdown sequence. -/
def cfgShutdown : Config := ⟨2, 10, 0, 1, 1, 1, 0, 1⟩

/-- C7 counterexample: the claim says the final snapshot is persisted
after closing the environments and the metrics sink; in the trace the
final `model.save` comes first, and no save occurs after `env.close()` —
here the whole trace is the shutdown sequence and everything after
`envClose` is metrics-sink teardown. -/
theorem final_save_order_cex :
    runTrace cfgShutdown =
      [Event.saveLatest, Event.envClose, Event.loggerExport,
       Event.loggerClose] ∧
    (∀ l r, runTrace cfgShutdown = l ++ Event.envClose :: r →
      Event.saveLatest ∉ r) := by
  have htr : runTrace cfgShutdown =
      [Event.saveLatest, Event.envClose, Event.loggerExport,
       Event.loggerClose] := by decide
  refine ⟨htr, ?_⟩
  intro l r hlr
  rw [htr] at hlr
  rcases l with _ | ⟨a, l⟩
  · simp at hlr
  · rcases l with _ | ⟨b, l⟩
    · simp at hlr
      rcases hlr with ⟨h1, h2⟩
      subst h2
      decide
    · rcases l with _ | ⟨c, l⟩
      · simp at hlr
      · rcases l with _ | ⟨d, l⟩
        · simp at hlr
        · simp at hlr

/-- C7 (amended): at the end of every run a final canonical snapshot is
persisted unconditionally, and this persistence happens immediately
before closing the environments and the metrics sink — the trace always
ends with `model.save(model.pt)`, then `env.close()`, then the metrics
export and close. -/
theorem final_save_then_close (cfg : Config)
    (hW : 0 < cfg.n_rollout_threads) :
    ∃ pre, runTrace cfg =
      pre ++ [Event.saveLatest, Event.envClose, Event.loggerExport,
        Event.loggerClose] :=
  ⟨runEpisodes cfg (episodeIndices cfg) ⟨0, 0⟩, rfl⟩

/-- C7 witness: the shutdown shape at a concrete configuration. -/
theorem final_save_then_close_witness :
    0 < cfgTwoEpisodes.n_rollout_threads ∧
    ∃ pre, runTrace cfgTwoEpisodes =
      pre ++ [Event.saveLatest, Event.envClose, Event.loggerExport,
        Event.loggerClose] :=
  ⟨by decide, final_save_then_close cfgTwoEpisodes (by decide)⟩

/-- Python's `int()` applied to the decimal digit strings arising from
run-directory suffixes: the numeric value when every character is a
digit and the string is nonempty, `none` (a raised exception) otherwise. -/
def strDigits (cs : List Char) : Option Nat :=
  if cs ≠ [] ∧ cs.all (fun c => c.isDigit) then
    some (cs.foldl (fun acc c => 10 * acc + (c.toNat - 48)) 0)
  else none

/-- Lines 27-36 of `main.py`: scan the model directory's entry names,
keep those starting with `run`, parse the rest of each name as an
integer, and pick 1 when none parse, otherwise the maximum plus one.
`names` is the directory listing (empty when the directory does not
exist); a failed `int()` is `none`.  `split('run')[1]` is rendered as
dropping the `run` head (they agree on every `run<N>` name), and
Python's `max` on a nonempty list of naturals is the fold of `max`
over 0. -/
def next_run_index (names : List String) : Option Nat :=
  let parsed := (names.filter (fun nm => nm.toList.take 3 = ['r', 'u', 'n'])).map
      (fun nm => strDigits (nm.toList.drop 3))
  if parsed.all (fun o => o.isSome) then
    let ns := parsed.filterMap (fun o => o)
    some (if ns.isEmpty then 1 else ns.foldr max 0 + 1)
  else none

/-- C8: Run-index assignment.  An empty model directory yields run 1; a
directory holding `run1` and `run3` yields run 4; one holding only
`run1` yields run 2; and in general, whenever the `run`-named entries
parse to the numbers `ns`, the new run index is one greater than their
maximum, or 1 when there are none. -/
theorem filterMap_id_map_some (ns : List Nat) :
    (ns.map some).filterMap (fun o => o) = ns := by
  induction ns with
  | nil => rfl
  | cons x xs ih => simp [List.filterMap_cons, Function.comp, ih]

theorem run_index_assignment (names : List String) (ns : List Nat)
    (h : (names.filter (fun nm => nm.toList.take 3 = ['r', 'u', 'n'])).map
        (fun nm => strDigits (nm.toList.drop 3)) = ns.map some) :
    next_run_index [] = some 1 ∧
    next_run_index ["run1", "run3"] = some 4 ∧
    next_run_index ["run1"] = some 2 ∧
    next_run_index names = some (if ns.isEmpty then 1 else ns.foldr max 0 + 1) := by
  refine ⟨by decide, by decide, by decide, ?_⟩
  simp only [next_run_index, h]
  have hall : ((ns.map some).all (fun o => o.isSome)) = true := by
    simp [List.all_eq_true]
  rw [if_pos hall]
  rw [filterMap_id_map_some]

/-- C8 witness: the general law instantiated at the directory listing
`run1, run3`, whose parsed indices are 1 and 3. -/
theorem run_index_assignment_witness :
    ((["run1", "run3"].filter (fun nm => nm.toList.take 3 = ['r', 'u', 'n'])).map
        (fun nm => strDigits (nm.toList.drop 3)) = [1, 3].map some) ∧
    (next_run_index [] = some 1 ∧
     next_run_index ["run1", "run3"] = some 4 ∧
     next_run_index ["run1"] = some 2 ∧
     next_run_index ["run1", "run3"] =
       some (if ([1, 3] : List Nat).isEmpty then 1
             else ([1, 3] : List Nat).foldr max 0 + 1)) :=
  ⟨by decide, run_index_assignment ["run1", "run3"] [1, 3] (by decide)⟩

/-- Modelled from the spec: `utils/buffer.py`
(`ReplayBuffer.get_average_rewards`) is not among the provided sources.
Per sections 4.1 and 4.5 it returns, per agent, the mean reward over
the most recent `window` entries in insertion order; here one agent's
reward history is a rational list, oldest first. -/
def get_average_rewards (rewards : List ℚ) (window : Nat) : ℚ :=
  (rewards.drop (rewards.length - window)).sum / (window : ℚ)

/-- Lines 101-105 of `main.py`: per agent, fetch the windowed mean over
`episode_length * n_rollout_threads` recent entries, then report
`a_ep_rew * config.episode_length` to the metrics sink under
`agent{i}/mean_episode_rewards`. -/
def episode_log_values (cfg : Config) (agentRewards : List (List ℚ)) :
    List ℚ :=
  (agentRewards.map (fun rs =>
      get_average_rewards rs
        (cfg.episode_length * cfg.n_rollout_threads))).map
    (fun a_ep_rew => a_ep_rew * (cfg.episode_length : ℚ))

/-- A single-thread configuration with episodes of length 2. -/
def cfgMetrics : Config := ⟨1, 10, 1, 2, 100, 4, 1024, 1000⟩

/-- C9 counterexample: with episode length 2 and one worker, an agent
whose recent rewards are all 1 has windowed mean 1, yet the value
reported to the sink is 2 — the reported value is not the windowed mean
itself. -/
theorem episode_metric_cex :
    get_average_rewards [1, 1]
        (cfgMetrics.episode_length * cfgMetrics.n_rollout_threads) = 1 ∧
    episode_log_values cfgMetrics [[1, 1]] = [2] ∧
    episode_log_values cfgMetrics [[1, 1]] ≠
      [get_average_rewards [1, 1]
        (cfgMetrics.episode_length * cfgMetrics.n_rollout_threads)] := by
  refine ⟨?_, ?_, ?_⟩ <;>
    norm_num [episode_log_values, get_average_rewards, cfgMetrics]

/-- C9 (amended): at every episode end the value reported for each agent
is the windowed mean reward over the most recent
`episode_length * n_rollout_threads` entries multiplied by
`episode_length` (an estimate of the per-episode total reward, matching
the sink key `mean_episode_rewards`), keyed by agent index. -/
theorem episode_metric_scaled (cfg : Config)
    (agentRewards : List (List ℚ)) :
    episode_log_values cfg agentRewards =
      agentRewards.map (fun rs =>
        get_average_rewards rs (cfg.episode_length * cfg.n_rollout_threads) *
          (cfg.episode_length : ℚ)) := by
  simp [episode_log_values, List.map_map, Function.comp]
